import Mathlib

/-
Verification of the CSP tile-placement core (tile_placement.py).

The solver assigns one of three tile types to every cell of a coarse grid
derived from a landscape matrix, subject to per-type supply limits.  The
pipeline is: build the grid and full domains, run an AC-3 style propagation
pass, then depth-first backtracking search with MRV / degree / LCV heuristics,
consulting a single consistency predicate.

The Python recursion in the backtracking search deepens by exactly one
assigned cell per level, and the propagation work queue strictly decreases a
natural measure at every dequeue; both loops are therefore embedded with a
structural fuel argument, instantiated by the entry points with an explicit
bound that the recursion depth provably never exceeds (see the fixed-point
and completeness theorems below, which show the results are independent of
any fuel at or above the bound).
-/

namespace TilePlacement

/-- Tile edge length: the class constant TILE_SIZE = 4. -/
def TILE_SIZE : Nat := 4

/-- Core inputs of a tile placement instance, as held by TilePlacementProblem:
the (rectangular) landscape matrix and the three per-type supply counts
in the order FULL_BLOCK, OUTER_BOUNDARY, EL_SHAPE. -/
structure TilePlacementProblem where
  landscape : List (List Nat)
  tile_counts : List Nat
deriving DecidableEq, Repr

namespace TilePlacementProblem

/-- Number of landscape rows (self.height, first component of landscape.shape). -/
def height (p : TilePlacementProblem) : Nat := p.landscape.length

/-- Number of landscape columns (self.width, second component of landscape.shape);
for a rectangular matrix this is the length of the first row. -/
def width (p : TilePlacementProblem) : Nat := (p.landscape.headD []).length

/-- Rectangularity of the landscape matrix: every row has the common width. -/
def Rectangular (p : TilePlacementProblem) : Prop :=
  ∀ row ∈ p.landscape, row.length = p.width

/-- Coarse grid height: (self.height + TILE_SIZE - 1) // TILE_SIZE. -/
def grid_height (p : TilePlacementProblem) : Nat :=
  (p.height + TILE_SIZE - 1) / TILE_SIZE

/-- Coarse grid width: (self.width + TILE_SIZE - 1) // TILE_SIZE. -/
def grid_width (p : TilePlacementProblem) : Nat :=
  (p.width + TILE_SIZE - 1) / TILE_SIZE

end TilePlacementProblem

/-- Placement cell: a coarse grid coordinate pair (i, j). -/
abbrev Cell := Nat × Nat

/-- The partial assignment dict, mapping placement cells to tile type indices.
Modelled as an insertion-ordered association list with unique keys, exactly
the observable content of the Python dict self.assignment. -/
abbrev Assignment := List (Cell × Nat)

/-- Keys of the assignment (assignment.keys()). -/
def keysOf (a : Assignment) : List Cell := a.map Prod.fst

/-- Number of cells currently assigned a given value:
sum(v == value for v in self.assignment.values()). -/
def countValue (a : Assignment) (value : Nat) : Nat :=
  List.countP (fun kv => kv.2 == value) a

/-- Deletion of a key from the assignment dict (del self.assignment[var]). -/
def eraseKey (a : Assignment) (var : Cell) : Assignment :=
  List.eraseP (fun kv => kv.1 == var) a

/-- Value stored for a cell, if any (self.assignment.get(c)). -/
def lookupCell (a : Assignment) (c : Cell) : Option Nat :=
  match a.find? (fun kv => kv.1 == c) with
  | some kv => some kv.2
  | none => none

/-- The placement cells in dict insertion order, exactly as enumerated by
the domain dict comprehension of TilePlacementCSP.__init__:
(i, j) for i in range(grid_height) for j in range(grid_width). -/
def gridCells (p : TilePlacementProblem) : List Cell :=
  (List.range p.grid_height).flatMap fun i =>
    (List.range p.grid_width).map fun j => (i, j)

/-- Number of placement cells, len(self.domains). -/
def numCells (p : TilePlacementProblem) : Nat := (gridCells p).length

/-- Initial domain store: every cell maps to [0, 1, 2]. -/
def initDomains : Cell → List Nat := fun _ => [0, 1, 2]

/-- The Consistency Oracle, TilePlacementCSP._is_consistent: a candidate
(var, value) is rejected when the supply of the value is already exhausted
by the current assignment, or when the top-left landscape coordinate of the
cell falls outside the landscape; otherwise it is accepted. -/
def is_consistent (p : TilePlacementProblem) (a : Assignment)
    (var : Cell) (value : Nat) : Bool :=
  if p.tile_counts.getD value 0 ≤ countValue a value then
    false
  else if var.1 * TILE_SIZE ≥ p.height ∨ var.2 * TILE_SIZE ≥ p.width then
    false
  else
    true

/-- Inner loop of the AC-3 pass for one dequeued cell: iterate over a snapshot
of the domain of the cell; whenever no value of the current domain is
consistent, remove the snapshot value from the domain and record a revision.
The first component is the final domain, the second the revised flag. -/
def revise_loop (p : TilePlacementProblem) (a : Assignment) (var : Cell) :
    List Nat → List Nat → List Nat × Bool
  | [], dom => (dom, false)
  | value :: rest, dom =>
    if dom.any fun v => is_consistent p a var v then
      revise_loop p a var rest dom
    else
      ((revise_loop p a var rest (dom.erase value)).1, true)

/-- Work-queue loop of TilePlacementCSP._ac3: dequeue a cell, run the
revision loop on its domain (against the empty assignment, since propagation
runs before search), and on any revision re-enqueue every cell.  The loop is
structural on a fuel argument; ac3_fuel below is a proven upper bound on the
number of dequeues the queue can ever perform. -/
def ac3_loop (p : TilePlacementProblem) :
    Nat → (Cell → List Nat) → List Cell → (Cell → List Nat)
  | 0, doms, _ => doms
  | _ + 1, doms, [] => doms
  | fuel + 1, doms, var :: rest =>
    let res := revise_loop p [] var (doms var) (doms var)
    if res.2 then
      ac3_loop p fuel (fun c => if c = var then res.1 else doms c)
        (rest ++ gridCells p)
    else
      ac3_loop p fuel doms rest

/-- Fuel bound for the AC-3 queue: the initial queue holds numCells entries,
each of the at most numCells revisions appends numCells entries, and every
dequeue consumes one unit. -/
def ac3_fuel (p : TilePlacementProblem) : Nat :=
  numCells p + numCells p * numCells p

/-- TilePlacementCSP._ac3: run the work-queue loop from the full initial
domains and the queue of all cells, then report whether every domain is
nonempty (all(self.domains.values())) together with the final domain store. -/
def ac3 (p : TilePlacementProblem) : Bool × (Cell → List Nat) :=
  let final := ac3_loop p (ac3_fuel p) initDomains (gridCells p)
  ((gridCells p).all (fun c => !(final c).isEmpty), final)

/-- TilePlacementCSP._degree_heuristic: the number of cells other than var
that are not yet assigned. -/
def degree_heuristic (p : TilePlacementProblem) (a : Assignment) (var : Cell) :
    Nat :=
  List.countP (fun n => !(n == var) && !((keysOf a).contains n)) (gridCells p)

/-- Strict comparison of the MRV selection keys
(len(domain), -degree_heuristic) used by the min call of _backtrack. -/
def mrvKeyLt (p : TilePlacementProblem) (doms : Cell → List Nat)
    (a : Assignment) (v w : Cell) : Bool :=
  (doms v).length < (doms w).length ||
    ((doms v).length == (doms w).length &&
      degree_heuristic p a w < degree_heuristic p a v)

/-- Variable selection of _backtrack: the minimum, under the MRV key with
degree tie-break, of the unassigned cells (domains.keys() - assignment.keys());
none when every cell is assigned.  A fold keeps the earliest cell among those
of minimal key, as the Python min does over its iteration order. -/
def select_var (p : TilePlacementProblem) (doms : Cell → List Nat)
    (a : Assignment) : Option Cell :=
  match (gridCells p).filter (fun c => !((keysOf a).contains c)) with
  | [] => none
  | c :: rest =>
    some (rest.foldl (fun best x => if mrvKeyLt p doms a x best then x else best) c)

/-- TilePlacementCSP._least_constraining_value: the aggregate domain size over
all cells whose domain still contains the value. -/
def least_constraining_value (p : TilePlacementProblem)
    (doms : Cell → List Nat) (value : Nat) : Nat :=
  (((gridCells p).filter fun n => (doms n).contains value).map
    fun n => (doms n).length).sum

/-- Stable insertion of a value into a key-sorted list: the value goes before
the first element whose key is not smaller, so elements with equal keys keep
their original relative order, exactly as in the stable Python sorted(). -/
def insert_by_key (key : Nat → Nat) (v : Nat) : List Nat → List Nat
  | [] => [v]
  | w :: rest =>
    if key w < key v then w :: insert_by_key key v rest
    else v :: w :: rest

/-- Stable ascending sort by key.  CPython sorted() is a stable ascending
sort, and the stable ascending reordering of a list is unique, so this
structurally recursive insertion sort returns exactly the list that
sorted(domain, key=...) returns. -/
def sort_by_key (key : Nat → Nat) : List Nat → List Nat
  | [] => []
  | v :: rest => insert_by_key key v (sort_by_key key rest)

/-- Candidate ordering of _backtrack:
sorted(self.domains[var], key=self._least_constraining_value), a stable sort
in ascending key order. -/
def order_values (p : TilePlacementProblem) (doms : Cell → List Nat)
    (dom : List Nat) : List Nat :=
  sort_by_key (least_constraining_value p doms) dom

/-- Value loop of _backtrack: for each candidate value in order, if consistent,
assign it (dict insertion appends, since the key is absent), run the
continuation bt (the recursive search at the remaining depth), and on failure
delete the key (del self.assignment[var]) and continue with the next value. -/
def try_values (p : TilePlacementProblem)
    (bt : Assignment → Option Assignment × Assignment)
    (var : Cell) : List Nat → Assignment → Option Assignment × Assignment
  | [], a => (none, a)
  | value :: rest, a =>
    if is_consistent p a var value then
      match bt (a ++ [(var, value)]) with
      | (some r, s) => (some r, s)
      | (none, s) => try_values p bt var rest (eraseKey s var)
    else
      try_values p bt var rest a

/-- TilePlacementCSP._backtrack, with the assignment dict threaded explicitly:
returns the Python return value (the complete assignment, or none) together
with the final state of the assignment dict.  The recursion is structural on
a fuel argument; each recursive call assigns one more cell, so solve
instantiates the fuel with numCells + 1, which the recursion depth provably
never exceeds. -/
def backtrack (p : TilePlacementProblem) (doms : Cell → List Nat) :
    Nat → Assignment → Option Assignment × Assignment
  | 0, a => (none, a)
  | fuel + 1, a =>
    if a.length = numCells p then (some a, a)
    else
      match select_var p doms a with
      | none => (none, a)
      | some var =>
        try_values p (backtrack p doms fuel) var (order_values p doms (doms var)) a

/-- TilePlacementCSP.solve: run propagation; on failure return the
unsatisfiable signal, otherwise run the backtracking search from the empty
assignment over the propagated domains. -/
def solve (p : TilePlacementProblem) : Option Assignment :=
  let r := ac3 p
  if r.1 then (backtrack p r.2 (numCells p + 1) []).1 else none

/-- A cell survives the propagation pass exactly when some tile value is
consistent for it against the empty assignment (the assignment is empty while
_ac3 runs, since solve calls it before any search). -/
def keepable (p : TilePlacementProblem) (c : Cell) : Bool :=
  ([0, 1, 2] : List Nat).any fun v => is_consistent p [] c v

/-- Cells whose domain is still nonempty but holds no consistent value: the
cells the AC-3 queue loop has yet to empty. -/
def badCells (p : TilePlacementProblem) (doms : Cell → List Nat) : Finset Cell :=
  (gridCells p).toFinset.filter fun c => doms c ≠ [] ∧ keepable p c = false

/-- Termination measure of the AC-3 queue loop: pending queue entries plus
numCells units for every cell still awaiting its emptying revision. -/
def ac3Measure (p : TilePlacementProblem) (doms : Cell → List Nat)
    (queue : List Cell) : Nat :=
  queue.length + numCells p * (badCells p doms).card

/-- Invariant of the search state: the assignment dict has no duplicate keys,
every key is a placement cell, every stored value lies in the domain of its
cell, and no tile type is used beyond its supply. -/
def GoodState (p : TilePlacementProblem) (doms : Cell → List Nat)
    (a : Assignment) : Prop :=
  (keysOf a).Nodup ∧
  (∀ c ∈ keysOf a, c ∈ gridCells p) ∧
  (∀ kv ∈ a, kv.2 ∈ doms kv.1) ∧
  (∀ t : Nat, countValue a t ≤ p.tile_counts.getD t 0)

/-- A total candidate solution f extends the partial assignment a. -/
def ExtendsAssign (f : Cell → Nat) (a : Assignment) : Prop :=
  ∀ kv ∈ a, f kv.1 = kv.2

/-- A total assignment of the grid cells to tile types {0,1,2} that respects
every per-type supply limit. -/
def ValidTotal (p : TilePlacementProblem) (f : Cell → Nat) : Prop :=
  (∀ c ∈ gridCells p, f c < 3) ∧
  (∀ t : Nat, t < 3 →
    List.countP (fun c => f c == t) (gridCells p) ≤ p.tile_counts.getD t 0)

/-- Concrete instance: one-cell landscape, one FULL_BLOCK available. -/
def pOne : TilePlacementProblem := ⟨[[0]], [1, 0, 0]⟩

/-- Concrete instance: one-cell landscape, no tiles available at all. -/
def pZero : TilePlacementProblem := ⟨[[0]], [0, 0, 0]⟩

/-- Concrete instance: one-cell landscape, supply zero for FULL_BLOCK only. -/
def pPartial : TilePlacementProblem := ⟨[[0]], [0, 1, 1]⟩

/-- Concrete instance with a 1 x 2 coarse grid, used to probe the value
ordering heuristic. -/
def pProbe : TilePlacementProblem := ⟨[[0, 0, 0, 0, 0]], [1, 1, 1]⟩

/-- Concrete domain store in which the two cells of pProbe hold domains of
different sizes, so the two candidate values have distinct aggregate scores. -/
def probeDoms : Cell → List Nat := fun c => if c = (0, 1) then [0, 1] else [0]

/-- Membership in the coarse grid cell list. -/
theorem mem_gridCells {p : TilePlacementProblem} {c : Cell} :
    c ∈ gridCells p ↔ c.1 < p.grid_height ∧ c.2 < p.grid_width := by
  cases c with
  | mk i j => simp [gridCells]

/-- The coarse grid cell list enumerates each cell once. -/
theorem gridCells_nodup {p : TilePlacementProblem} : (gridCells p).Nodup := by
  have h : gridCells p = List.range p.grid_height ×ˢ List.range p.grid_width := rfl
  rw [h]
  exact List.Nodup.product (List.nodup_range _) (List.nodup_range _)

/-- Number of placement cells: product of the coarse grid dimensions. -/
theorem numCells_eq {p : TilePlacementProblem} :
    numCells p = p.grid_height * p.grid_width := by
  unfold numCells gridCells
  rw [List.length_flatMap]
  have h : List.map (List.length ∘ fun i =>
      (List.range p.grid_width).map fun j => (i, j)) (List.range p.grid_height) =
      List.map (fun _ => p.grid_width) (List.range p.grid_height) := by
    apply List.map_congr_left
    intro i _
    simp
  rw [h]
  simp [List.map_const, mul_comm]

/-- Rows of the coarse grid start strictly inside the landscape. -/
theorem row_origin_lt {p : TilePlacementProblem} {i : Nat}
    (h : i < p.grid_height) : i * TILE_SIZE < p.height := by
  have h4 : (p.height + 4 - 1) / 4 * 4 ≤ p.height + 4 - 1 := Nat.div_mul_le_self _ _
  have h2 : i < (p.height + 4 - 1) / 4 := h
  show i * 4 < p.height
  omega

/-- Columns of the coarse grid start strictly inside the landscape. -/
theorem col_origin_lt {p : TilePlacementProblem} {j : Nat}
    (h : j < p.grid_width) : j * TILE_SIZE < p.width := by
  have h4 : (p.width + 4 - 1) / 4 * 4 ≤ p.width + 4 - 1 := Nat.div_mul_le_self _ _
  have h2 : j < (p.width + 4 - 1) / 4 := h
  show j * 4 < p.width
  omega

/-- Characterization of the Consistency Oracle: a candidate passes exactly
when the supply of its value is not yet exhausted and the top-left landscape
coordinate of its cell is in range. -/
theorem is_consistent_iff {p : TilePlacementProblem} {a : Assignment}
    {var : Cell} {value : Nat} :
    is_consistent p a var value = true ↔
      countValue a value < p.tile_counts.getD value 0 ∧
      var.1 * TILE_SIZE < p.height ∧ var.2 * TILE_SIZE < p.width := by
  unfold is_consistent
  simp only [List.getD_eq_getElem?_getD] at *
  split_ifs with h1 h2 <;> simp <;> omega

/-- Stable insertion produces a permutation of the value and the list. -/
theorem insert_by_key_perm (key : Nat → Nat) (v : Nat) :
    ∀ l, (insert_by_key key v l).Perm (v :: l) := by
  intro l
  induction l with
  | nil => exact List.Perm.refl _
  | cons w rest ih =>
    unfold insert_by_key
    by_cases h : key w < key v
    · rw [if_pos h]
      exact (ih.cons w).trans (List.Perm.swap v w rest)
    · rw [if_neg h]

/-- The stable sort produces a permutation of its input. -/
theorem sort_by_key_perm (key : Nat → Nat) :
    ∀ l, (sort_by_key key l).Perm l := by
  intro l
  induction l with
  | nil => exact List.Perm.refl _
  | cons v rest ih =>
    unfold sort_by_key
    exact (insert_by_key_perm key v _).trans (ih.cons v)

/-- Stable insertion preserves ascending key order. -/
theorem insert_by_key_sorted {key : Nat → Nat} {v : Nat} :
    ∀ {l : List Nat}, l.Pairwise (fun a b => key a ≤ key b) →
      (insert_by_key key v l).Pairwise fun a b => key a ≤ key b := by
  intro l
  induction l with
  | nil =>
    intro _
    simp [insert_by_key]
  | cons w rest ih =>
    intro hs
    obtain ⟨hw, hrest⟩ := List.pairwise_cons.mp hs
    unfold insert_by_key
    by_cases h : key w < key v
    · rw [if_pos h]
      refine List.pairwise_cons.mpr ⟨?_, ih hrest⟩
      intro x hx
      rcases List.mem_cons.mp ((insert_by_key_perm key v rest).mem_iff.mp hx) with
        hxv | hxr
      · exact hxv ▸ Nat.le_of_lt h
      · exact hw x hxr
    · rw [if_neg h]
      refine List.pairwise_cons.mpr ⟨?_, hs⟩
      intro x hx
      rcases List.mem_cons.mp hx with hxw | hxr
      · exact hxw ▸ Nat.le_of_not_lt h
      · exact Nat.le_trans (Nat.le_of_not_lt h) (hw x hxr)

/-- The candidate ordering is ascending in the aggregate key. -/
theorem order_values_sorted (p : TilePlacementProblem) (doms : Cell → List Nat)
    (dom : List Nat) :
    (order_values p doms dom).Pairwise fun a b =>
      least_constraining_value p doms a ≤ least_constraining_value p doms b := by
  unfold order_values
  induction dom with
  | nil => simp [sort_by_key]
  | cons v rest ih =>
    unfold sort_by_key
    exact insert_by_key_sorted ih

/-- The candidate ordering is a permutation of the domain. -/
theorem mem_order_values {p : TilePlacementProblem} {doms : Cell → List Nat}
    {d : List Nat} {v : Nat} : v ∈ order_values p doms d ↔ v ∈ d :=
  (sort_by_key_perm _ d).mem_iff

/-- When some value of the current domain is consistent, the revision loop
leaves the domain unchanged and reports no revision. -/
theorem revise_loop_of_any {p : TilePlacementProblem} {a : Assignment}
    {var : Cell} {dom : List Nat}
    (h : (dom.any fun v => is_consistent p a var v) = true) :
    ∀ s, revise_loop p a var s dom = (dom, false) := by
  intro s
  induction s with
  | nil => rfl
  | cons v rest ih => simp [revise_loop, h, ih]

/-- When no tile value is consistent, the revision loop on a full domain
removes every value and reports a revision. -/
theorem revise_loop_full {p : TilePlacementProblem} {a : Assignment} {var : Cell}
    (h : (([0, 1, 2] : List Nat).any fun v => is_consistent p a var v) = false) :
    revise_loop p a var [0, 1, 2] [0, 1, 2] = ([], true) := by
  simp only [List.any_cons, List.any_nil, Bool.or_false,
    Bool.or_eq_false_iff] at h
  obtain ⟨h0, h1, h2⟩ := h
  simp [revise_loop, h0, h1, h2, List.erase_cons]

/-- Closed form of the AC-3 queue loop.  Provided the fuel covers the measure
(queue length plus numCells per still-revisable cell), the loop empties the
domain of exactly those enqueued cells holding no consistent value, and leaves
every other domain untouched.  The hypotheses state that every domain is still
full or already empty, that the queue holds only grid cells, and that every
cell awaiting its emptying revision is enqueued. -/
theorem ac3_loop_eq {p : TilePlacementProblem} :
    ∀ (fuel : Nat) (doms : Cell → List Nat) (queue : List Cell),
      (∀ c, doms c = [0, 1, 2] ∨ doms c = []) →
      (∀ c ∈ queue, c ∈ gridCells p) →
      (∀ c ∈ gridCells p, doms c ≠ [] → keepable p c = false → c ∈ queue) →
      ac3Measure p doms queue ≤ fuel →
      ∀ c, ac3_loop p fuel doms queue c =
        if c ∈ gridCells p ∧ doms c ≠ [] ∧ keepable p c = false then []
        else doms c := by
  intro fuel
  induction fuel with
  | zero =>
    intro doms queue hInv hQ hBad hM c
    have hq : queue = [] := by
      unfold ac3Measure at hM
      cases queue with
      | nil => rfl
      | cons x xs => simp at hM
    subst hq
    have hno : ¬ (c ∈ gridCells p ∧ doms c ≠ [] ∧ keepable p c = false) := by
      rintro ⟨hc, hne, hk⟩
      exact absurd (hBad c hc hne hk) (List.not_mem_nil c)
    simp [ac3_loop, hno]
  | succ fuel ih =>
    intro doms queue hInv hQ hBad hM c
    cases queue with
    | nil =>
      have hno : ¬ (c ∈ gridCells p ∧ doms c ≠ [] ∧ keepable p c = false) := by
        rintro ⟨hc, hne, hk⟩
        exact absurd (hBad c hc hne hk) (List.not_mem_nil c)
      simp [ac3_loop, hno]
    | cons var rest =>
      have hvar : var ∈ gridCells p := hQ var (List.mem_cons_self _ _)
      have hrestQ : ∀ x ∈ rest, x ∈ gridCells p :=
        fun x hx => hQ x (List.mem_cons_of_mem _ hx)
      unfold ac3Measure at hM
      rcases hInv var with hfull | hempty
      · by_cases hk : keepable p var = true
        · -- consistent value present: no revision, dequeue and continue
          have hany : ((doms var).any fun v => is_consistent p [] var v) = true := by
            rw [hfull]; exact hk
          have hrl : revise_loop p [] var (doms var) (doms var) = (doms var, false) :=
            revise_loop_of_any hany _
          have hstep : ac3_loop p (fuel + 1) doms (var :: rest) =
              ac3_loop p fuel doms rest := by
            simp only [ac3_loop]
            rw [hrl]
            simp
          rw [hstep]
          have hBad2 : ∀ x ∈ gridCells p, doms x ≠ [] → keepable p x = false →
              x ∈ rest := by
            intro x hx hne hkx
            rcases List.mem_cons.mp (hBad x hx hne hkx) with h | h
            · exact absurd (h ▸ hkx) (by simp [hk])
            · exact h
          have hM2 : ac3Measure p doms rest ≤ fuel := by
            unfold ac3Measure
            simp only [List.length_cons] at hM
            omega
          exact ih doms rest hInv hrestQ hBad2 hM2 c
        · -- no consistent value: the domain of var is emptied, all re-enqueued
          have hk2 : keepable p var = false := by
            cases hkv : keepable p var with
            | true => exact absurd hkv hk
            | false => rfl
          have hany : ((doms var).any fun v => is_consistent p [] var v) = false := by
            rw [hfull]; exact hk2
          have hrl : revise_loop p [] var (doms var) (doms var) = ([], true) := by
            rw [hfull]; exact revise_loop_full (hfull ▸ hany)
          have hstep : ac3_loop p (fuel + 1) doms (var :: rest) =
              ac3_loop p fuel (fun x => if x = var then [] else doms x)
                (rest ++ gridCells p) := by
            simp only [ac3_loop]
            rw [hrl]
            simp
          rw [hstep]
          have hInv2 : ∀ x, (if x = var then [] else doms x) = [0, 1, 2] ∨
              (if x = var then ([] : List Nat) else doms x) = [] := by
            intro x
            by_cases hx : x = var
            · simp [hx]
            · simpa [hx] using hInv x
          have hQ2 : ∀ x ∈ rest ++ gridCells p, x ∈ gridCells p := by
            intro x hx
            rcases List.mem_append.mp hx with h | h
            · exact hrestQ x h
            · exact h
          have hBad2 : ∀ x ∈ gridCells p,
              (if x = var then ([] : List Nat) else doms x) ≠ [] →
              keepable p x = false → x ∈ rest ++ gridCells p := by
            intro x hx _ _
            exact List.mem_append_right _ hx
          have hvarBad : var ∈ badCells p doms := by
            unfold badCells
            simp only [Finset.mem_filter, List.mem_toFinset]
            exact ⟨hvar, by simp [hfull], hk2⟩
          have hErase : badCells p (fun x => if x = var then [] else doms x) =
              (badCells p doms).erase var := by
            unfold badCells
            ext x
            simp only [Finset.mem_filter, Finset.mem_erase, List.mem_toFinset]
            by_cases hx : x = var
            · subst hx; simp
            · simp [hx]
          have hM2 : ac3Measure p (fun x => if x = var then [] else doms x)
              (rest ++ gridCells p) ≤ fuel := by
            unfold ac3Measure
            rw [hErase, Finset.card_erase_of_mem hvarBad, List.length_append]
            have hpos : 1 ≤ (badCells p doms).card := Finset.card_pos.mpr ⟨var, hvarBad⟩
            obtain ⟨m, hm⟩ := Nat.exists_eq_add_of_le hpos
            rw [hm] at hM ⊢
            have e1 : numCells p * (1 + m) = numCells p * m + numCells p := by ring
            have e2 : 1 + m - 1 = m := by omega
            rw [e2]
            rw [e1] at hM
            simp only [List.length_cons] at hM
            have : numCells p = (gridCells p).length := rfl
            omega
          rw [ih _ _ hInv2 hQ2 hBad2 hM2 c]
          by_cases hc : c = var
          · subst hc
            simp [hvar, hfull, hk2]
          · simp only [if_neg hc]
      · -- the domain of var is already empty: revision is a no-op
        have hrl : revise_loop p [] var (doms var) (doms var) = ([], false) := by
          rw [hempty]; rfl
        have hstep : ac3_loop p (fuel + 1) doms (var :: rest) =
            ac3_loop p fuel doms rest := by
          simp only [ac3_loop]
          rw [hrl]
          simp
        rw [hstep]
        have hBad2 : ∀ x ∈ gridCells p, doms x ≠ [] → keepable p x = false →
            x ∈ rest := by
          intro x hx hne hkx
          rcases List.mem_cons.mp (hBad x hx hne hkx) with h | h
          · exact absurd (h ▸ hne) (by simp [hempty])
          · exact h
        have hM2 : ac3Measure p doms rest ≤ fuel := by
          unfold ac3Measure
          simp only [List.length_cons] at hM
          omega
        exact ih doms rest hInv hrestQ hBad2 hM2 c

/-- The initial AC-3 measure is within the fuel the solver provides. -/
theorem ac3Measure_le_fuel {p : TilePlacementProblem} :
    ac3Measure p initDomains (gridCells p) ≤ ac3_fuel p := by
  unfold ac3Measure ac3_fuel
  have hcard : (badCells p initDomains).card ≤ numCells p := by
    calc (badCells p initDomains).card ≤ (gridCells p).toFinset.card :=
          Finset.card_filter_le _ _
      _ ≤ (gridCells p).length := List.toFinset_card_le _
  have hmul : numCells p * (badCells p initDomains).card ≤
      numCells p * numCells p := Nat.mul_le_mul_left _ hcard
  have hl : (gridCells p).length = numCells p := rfl
  omega

/-- Closed form of the propagated domain store: a grid cell with no consistent
value is emptied, every other cell keeps the full domain. -/
theorem ac3_snd_eq {p : TilePlacementProblem} (c : Cell) :
    (ac3 p).2 c =
      if c ∈ gridCells p ∧ keepable p c = false then [] else [0, 1, 2] := by
  have h := ac3_loop_eq (ac3_fuel p) initDomains (gridCells p)
    (fun _ => Or.inl rfl) (fun x hx => hx) (fun x hx _ _ => hx)
    ac3Measure_le_fuel c
  have h2 : (ac3 p).2 = ac3_loop p (ac3_fuel p) initDomains (gridCells p) := rfl
  rw [h2, h]
  simp [initDomains]

/-- After propagation, every domain is the full initial list or empty. -/
theorem ac3_full_or_empty {p : TilePlacementProblem} (c : Cell) :
    (ac3 p).2 c = [0, 1, 2] ∨ (ac3 p).2 c = [] := by
  rw [ac3_snd_eq]
  split_ifs <;> simp

/-- The propagation verdict is positive exactly when every grid cell keeps
some consistent value. -/
theorem ac3_fst_iff {p : TilePlacementProblem} :
    (ac3 p).1 = true ↔ ∀ c ∈ gridCells p, keepable p c = true := by
  have h1 : (ac3 p).1 = (gridCells p).all fun c => !((ac3 p).2 c).isEmpty := rfl
  rw [h1, List.all_eq_true]
  constructor
  · intro h c hc
    have h2 := h c hc
    rw [ac3_snd_eq] at h2
    by_cases hk : keepable p c = true
    · exact hk
    · rw [if_pos ⟨hc, by simpa using hk⟩] at h2
      simp at h2
  · intro h c hc
    rw [ac3_snd_eq, if_neg]
    · simp
    · rintro ⟨_, hk⟩
      rw [h c hc] at hk
      cases hk

/-- On a passed propagation, every grid cell keeps the full domain. -/
theorem ac3_pass_full {p : TilePlacementProblem} (h : (ac3 p).1 = true)
    {c : Cell} (hc : c ∈ gridCells p) : (ac3 p).2 c = [0, 1, 2] := by
  rw [ac3_snd_eq, if_neg]
  rintro ⟨_, hk⟩
  rw [ac3_fst_iff.mp h c hc] at hk
  cases hk

/-- For a grid cell, surviving propagation means some tile type still has
positive supply: the propagation consistency test against the empty
assignment reduces to a supply check. -/
theorem keepable_iff_supply {p : TilePlacementProblem} {c : Cell}
    (hc : c ∈ gridCells p) :
    keepable p c = true ↔ ∃ v, v < 3 ∧ 0 < p.tile_counts.getD v 0 := by
  unfold keepable
  rw [List.any_eq_true]
  constructor
  · rintro ⟨v, hv, hcons⟩
    rw [is_consistent_iff] at hcons
    have hv3 : v = 0 ∨ v = 1 ∨ v = 2 := by simpa using hv
    refine ⟨v, by omega, ?_⟩
    have h0 := hcons.1
    simpa [countValue] using h0
  · rintro ⟨v, hv3, hpos⟩
    refine ⟨v, by simp; omega, ?_⟩
    rw [is_consistent_iff]
    have hb := mem_gridCells.mp hc
    exact ⟨by simpa [countValue] using hpos,
      row_origin_lt hb.1, col_origin_lt hb.2⟩

/-- The fold implementing the Python min stays inside the candidate list. -/
theorem foldl_min_mem (f : Cell → Cell → Bool) :
    ∀ (rest : List Cell) (c : Cell),
      rest.foldl (fun best x => if f x best then x else best) c ∈ c :: rest := by
  intro rest
  induction rest with
  | nil => intro c; exact List.mem_singleton.mpr rfl
  | cons x xs ih =>
    intro c
    have hfold : (x :: xs).foldl (fun best y => if f y best then y else best) c =
        xs.foldl (fun best y => if f y best then y else best)
          (if f x c then x else c) := rfl
    rw [hfold]
    have h := ih (if f x c then x else c)
    rcases List.mem_cons.mp h with h1 | h1
    · rw [h1]
      by_cases hf : f x c = true
      · simp only [hf, if_true]
        exact List.mem_cons_of_mem _ (List.mem_cons_self _ _)
      · simp only [Bool.not_eq_true] at hf
        simp only [hf, Bool.false_eq_true, if_false]
        exact List.mem_cons_self _ _
    · exact List.mem_cons_of_mem _ (List.mem_cons_of_mem _ h1)

/-- The selected variable is an unassigned grid cell. -/
theorem select_var_spec {p : TilePlacementProblem} {doms : Cell → List Nat}
    {a : Assignment} {var : Cell} (h : select_var p doms a = some var) :
    var ∈ gridCells p ∧ var ∉ keysOf a := by
  unfold select_var at h
  cases hfil : (gridCells p).filter (fun c => !((keysOf a).contains c)) with
  | nil => rw [hfil] at h; cases h
  | cons c rest =>
    rw [hfil] at h
    injection h with h
    have hmem : var ∈ c :: rest := h ▸ foldl_min_mem _ rest c
    rw [← hfil] at hmem
    have h2 := List.mem_filter.mp hmem
    refine ⟨h2.1, ?_⟩
    simpa using h2.2

/-- While cells remain unassigned, variable selection succeeds. -/
theorem select_var_isSome {p : TilePlacementProblem} {doms : Cell → List Nat}
    {a : Assignment} (hlt : a.length < numCells p) :
    ∃ var, select_var p doms a = some var := by
  have hex : ∃ c ∈ gridCells p, c ∉ keysOf a := by
    by_contra hno
    push_neg at hno
    have hsub2 : gridCells p ⊆ keysOf a := fun c hc => hno c hc
    have hle := (List.Nodup.subperm gridCells_nodup hsub2).length_le
    have hk : (keysOf a).length = a.length := List.length_map _ _
    unfold numCells at hlt
    omega
  obtain ⟨c, hc, hnc⟩ := hex
  have hfil : c ∈ (gridCells p).filter fun x => !((keysOf a).contains x) := by
    rw [List.mem_filter]
    exact ⟨hc, by simpa⟩
  unfold select_var
  cases hfe : (gridCells p).filter (fun x => !((keysOf a).contains x)) with
  | nil => rw [hfe] at hfil; cases hfil
  | cons d rest => exact ⟨_, rfl⟩

/-- Deleting the freshly inserted key restores the assignment dict. -/
theorem eraseKey_append {a : Assignment} {var : Cell} {v : Nat}
    (h : var ∉ keysOf a) : eraseKey (a ++ [(var, v)]) var = a := by
  unfold eraseKey
  rw [List.eraseP_append_right]
  · rw [List.eraseP_cons_of_pos]
    · simp
    · simp
  · intro b hb
    simp only [Bool.not_eq_true, beq_eq_false_iff_ne, ne_eq]
    intro hb1
    exact h (hb1 ▸ List.mem_map_of_mem Prod.fst hb)

/-- Value-loop part of the failure restoration: if every candidate fails, the
assignment dict at exit is the assignment dict at entry, because each failed
tentative assignment is removed again by the del step. -/
theorem try_values_restore {p : TilePlacementProblem} {doms : Cell → List Nat}
    {fuel : Nat}
    (hbt : ∀ a, (backtrack p doms fuel a).1 = none →
      (backtrack p doms fuel a).2 = a) :
    ∀ (vals : List Nat) (var : Cell) (a : Assignment), var ∉ keysOf a →
      (try_values p (backtrack p doms fuel) var vals a).1 = none →
      (try_values p (backtrack p doms fuel) var vals a).2 = a := by
  intro vals
  induction vals with
  | nil => intro var a hvar h; simp [try_values]
  | cons value rest ih =>
    intro var a hvar h
    by_cases hcons : is_consistent p a var value = true
    · cases hbtr : backtrack p doms fuel (a ++ [(var, value)]) with
      | mk ro s =>
        cases ro with
        | some r =>
          have heq : try_values p (backtrack p doms fuel) var (value :: rest) a = (some r, s) := by
            simp only [try_values]
            rw [if_pos hcons, hbtr]
          rw [heq] at h
          cases h
        | none =>
          have hs : s = a ++ [(var, value)] := by
            have h2 := hbt (a ++ [(var, value)])
            rw [hbtr] at h2
            exact h2 rfl
          have heq : try_values p (backtrack p doms fuel) var (value :: rest) a =
              try_values p (backtrack p doms fuel) var rest (eraseKey s var) := by
            simp only [try_values]
            rw [if_pos hcons, hbtr]
          rw [hs, eraseKey_append hvar] at heq
          rw [heq] at h ⊢
          exact ih var a hvar h
    · have heq : try_values p (backtrack p doms fuel) var (value :: rest) a =
          try_values p (backtrack p doms fuel) var rest a := by
        simp only [try_values]
        rw [if_neg hcons]
      rw [heq] at h ⊢
      exact ih var a hvar h

/-- Failure restoration for the recursive search: whenever a _backtrack call
reports failure, the assignment dict is exactly as it was on entry. -/
theorem backtrack_restore {p : TilePlacementProblem} {doms : Cell → List Nat} :
    ∀ (fuel : Nat) (a : Assignment), (backtrack p doms fuel a).1 = none →
      (backtrack p doms fuel a).2 = a := by
  intro fuel
  induction fuel with
  | zero => intro a h; simp [backtrack]
  | succ fuel ih =>
    intro a h
    by_cases hfull : a.length = numCells p
    · have heq : backtrack p doms (fuel + 1) a = (some a, a) := by
        simp only [backtrack]
        rw [if_pos hfull]
      rw [heq] at h
      cases h
    · cases hsv : select_var p doms a with
      | none =>
        have heq : backtrack p doms (fuel + 1) a = (none, a) := by
          simp only [backtrack]
          rw [if_neg hfull, hsv]
        rw [heq]
      | some var =>
        have hvar : var ∉ keysOf a := (select_var_spec hsv).2
        have heq : backtrack p doms (fuel + 1) a =
            try_values p (backtrack p doms fuel) var (order_values p doms (doms var)) a := by
          simp only [backtrack]
          rw [if_neg hfull, hsv]
        rw [heq] at h ⊢
        exact try_values_restore ih _ var a hvar h

/-- Appending a fresh entry adds one to the count of its value. -/
theorem countValue_append (a : Assignment) (var : Cell) (v t : Nat) :
    countValue (a ++ [(var, v)]) t =
      countValue a t + if v = t then 1 else 0 := by
  unfold countValue
  rw [List.countP_append]
  by_cases h : v = t
  · simp [List.countP_cons, h]
  · simp [List.countP_cons, h]

/-- A consistent tentative assignment preserves the search state invariant. -/
theorem GoodState.insert {p : TilePlacementProblem} {doms : Cell → List Nat}
    {a : Assignment} {var : Cell} {value : Nat}
    (hg : GoodState p doms a) (hvar : var ∈ gridCells p)
    (hnot : var ∉ keysOf a) (hval : value ∈ doms var)
    (hcons : is_consistent p a var value = true) :
    GoodState p doms (a ++ [(var, value)]) := by
  obtain ⟨hnd, hsub, hdom, hcount⟩ := hg
  have hkeys : keysOf (a ++ [(var, value)]) = keysOf a ++ [var] := by
    simp [keysOf]
  refine ⟨?_, ?_, ?_, ?_⟩
  · rw [hkeys]
    exact (List.perm_append_singleton var (keysOf a)).nodup_iff.mpr
      (List.nodup_cons.mpr ⟨hnot, hnd⟩)
  · intro c hc
    rw [hkeys] at hc
    rcases List.mem_append.mp hc with h | h
    · exact hsub c h
    · rw [List.mem_singleton.mp h]
      exact hvar
  · intro kv hkv
    rcases List.mem_append.mp hkv with h | h
    · exact hdom kv h
    · rw [List.mem_singleton.mp h]
      exact hval
  · intro t
    rw [countValue_append]
    by_cases hvt : value = t
    · subst hvt
      have hlt := (is_consistent_iff.mp hcons).1
      have h1 : (if value = value then 1 else 0) = 1 := if_pos rfl
      rw [h1]
      omega
    · simp only [if_neg hvt]
      have := hcount t
      omega

/-- Value-loop part of the success soundness argument. -/
theorem try_values_sound {p : TilePlacementProblem} {doms : Cell → List Nat}
    {fuel : Nat} {var : Cell}
    (hbt : ∀ a, GoodState p doms a → ∀ r,
      (backtrack p doms fuel a).1 = some r →
      GoodState p doms r ∧ r.length = numCells p)
    (hbtr : ∀ a, (backtrack p doms fuel a).1 = none →
      (backtrack p doms fuel a).2 = a)
    (hvar : var ∈ gridCells p) :
    ∀ (vals : List Nat) (a : Assignment), var ∉ keysOf a →
      (∀ v ∈ vals, v ∈ doms var) → GoodState p doms a →
      ∀ r, (try_values p (backtrack p doms fuel) var vals a).1 = some r →
        GoodState p doms r ∧ r.length = numCells p := by
  intro vals
  induction vals with
  | nil =>
    intro a _ _ _ r h
    simp [try_values] at h
  | cons value rest ih =>
    intro a hnot hdomv hg r h
    by_cases hcons : is_consistent p a var value = true
    · cases hbtres : backtrack p doms fuel (a ++ [(var, value)]) with
      | mk ro s =>
        cases ro with
        | some r2 =>
          have heq : try_values p (backtrack p doms fuel) var (value :: rest) a = (some r2, s) := by
            simp only [try_values]
            rw [if_pos hcons, hbtres]
          rw [heq] at h
          have hr : r2 = r := by injection h
          subst hr
          have hg2 : GoodState p doms (a ++ [(var, value)]) :=
            GoodState.insert hg hvar hnot
              (hdomv value (List.mem_cons_self _ _)) hcons
          exact hbt _ hg2 r2 (by rw [hbtres])
        | none =>
          have hs : s = a ++ [(var, value)] := by
            have h2 := hbtr (a ++ [(var, value)])
            rw [hbtres] at h2
            exact h2 rfl
          have heq : try_values p (backtrack p doms fuel) var (value :: rest) a =
              try_values p (backtrack p doms fuel) var rest (eraseKey s var) := by
            simp only [try_values]
            rw [if_pos hcons, hbtres]
          rw [hs, eraseKey_append hnot] at heq
          rw [heq] at h
          exact ih a hnot (fun v hv => hdomv v (List.mem_cons_of_mem _ hv)) hg r h
    · have heq : try_values p (backtrack p doms fuel) var (value :: rest) a =
          try_values p (backtrack p doms fuel) var rest a := by
        simp only [try_values]
        rw [if_neg hcons]
      rw [heq] at h
      exact ih a hnot (fun v hv => hdomv v (List.mem_cons_of_mem _ hv)) hg r h

/-- Soundness of the search: a successful _backtrack run from a good state
returns a complete assignment that still satisfies the state invariant. -/
theorem backtrack_sound {p : TilePlacementProblem} {doms : Cell → List Nat} :
    ∀ (fuel : Nat) (a : Assignment), GoodState p doms a →
      ∀ r, (backtrack p doms fuel a).1 = some r →
        GoodState p doms r ∧ r.length = numCells p := by
  intro fuel
  induction fuel with
  | zero =>
    intro a _ r h
    simp [backtrack] at h
  | succ fuel ih =>
    intro a hg r h
    by_cases hfull : a.length = numCells p
    · have heq : backtrack p doms (fuel + 1) a = (some a, a) := by
        simp only [backtrack]
        rw [if_pos hfull]
      rw [heq] at h
      have hr : a = r := by injection h
      subst hr
      exact ⟨hg, hfull⟩
    · cases hsv : select_var p doms a with
      | none =>
        have heq : backtrack p doms (fuel + 1) a = (none, a) := by
          simp only [backtrack]
          rw [if_neg hfull, hsv]
        rw [heq] at h
        cases h
      | some var =>
        obtain ⟨hvg, hvnot⟩ := select_var_spec hsv
        have heq : backtrack p doms (fuel + 1) a =
            try_values p (backtrack p doms fuel) var (order_values p doms (doms var)) a := by
          simp only [backtrack]
          rw [if_neg hfull, hsv]
        rw [heq] at h
        exact try_values_sound ih (backtrack_restore fuel) hvg _ a hvnot
          (fun v hv => mem_order_values.mp hv) hg r h

/-- Value-loop part of the completeness argument: if some listed candidate is
consistent and leads to a successful recursive search, the value loop
succeeds. -/
theorem try_values_complete {p : TilePlacementProblem} {doms : Cell → List Nat}
    {fuel : Nat} {var : Cell}
    (hbtr : ∀ a, (backtrack p doms fuel a).1 = none →
      (backtrack p doms fuel a).2 = a) :
    ∀ (vals : List Nat) (a : Assignment), var ∉ keysOf a →
      (∃ v ∈ vals, is_consistent p a var v = true ∧
        (backtrack p doms fuel (a ++ [(var, v)])).1.isSome = true) →
      (try_values p (backtrack p doms fuel) var vals a).1.isSome = true := by
  intro vals
  induction vals with
  | nil =>
    rintro a _ ⟨v, hv, _⟩
    cases hv
  | cons u rest ih =>
    rintro a hnot ⟨v, hv, hvc, hvs⟩
    by_cases hcons : is_consistent p a var u = true
    · cases hbtres : backtrack p doms fuel (a ++ [(var, u)]) with
      | mk ro s =>
        cases ro with
        | some r =>
          have heq : try_values p (backtrack p doms fuel) var (u :: rest) a = (some r, s) := by
            simp only [try_values]
            rw [if_pos hcons, hbtres]
          rw [heq]
          rfl
        | none =>
          have hvu : v ≠ u := by
            rintro rfl
            rw [hbtres] at hvs
            simp at hvs
          have hvrest : v ∈ rest := by
            rcases List.mem_cons.mp hv with h | h
            · exact absurd h hvu
            · exact h
          have hs : s = a ++ [(var, u)] := by
            have h2 := hbtr (a ++ [(var, u)])
            rw [hbtres] at h2
            exact h2 rfl
          have heq : try_values p (backtrack p doms fuel) var (u :: rest) a =
              try_values p (backtrack p doms fuel) var rest (eraseKey s var) := by
            simp only [try_values]
            rw [if_pos hcons, hbtres]
          rw [hs, eraseKey_append hnot] at heq
          rw [heq]
          exact ih a hnot ⟨v, hvrest, hvc, hvs⟩
    · have hvu : v ≠ u := by
        rintro rfl
        exact hcons hvc
      have hvrest : v ∈ rest := by
        rcases List.mem_cons.mp hv with h | h
        · exact absurd h hvu
        · exact h
      have heq : try_values p (backtrack p doms fuel) var (u :: rest) a =
          try_values p (backtrack p doms fuel) var rest a := by
        simp only [try_values]
        rw [if_neg hcons]
      rw [heq]
      exact ih a hnot ⟨v, hvrest, hvc, hvs⟩

/-- The count of a value in the assignment is the count, over the assigned
keys, of the cells the total solution maps to that value. -/
theorem countValue_eq_countP_keys {a : Assignment} {f : Cell → Nat}
    (hext : ExtendsAssign f a) (t : Nat) :
    countValue a t = List.countP (fun c => f c == t) (keysOf a) := by
  unfold countValue keysOf
  rw [List.countP_map]
  apply List.countP_congr
  intro kv hkv
  have h := hext kv hkv
  simp only [Function.comp_apply, h]

/-- Completeness of the search over full post-propagation domains: from any
good extendable state, with fuel exceeding the number of unassigned cells,
_backtrack succeeds whenever some valid total assignment extends the state. -/
theorem backtrack_complete {p : TilePlacementProblem} {doms : Cell → List Nat}
    {f : Cell → Nat} (hdoms : ∀ c ∈ gridCells p, doms c = [0, 1, 2])
    (hvalid : ValidTotal p f) :
    ∀ (fuel : Nat) (a : Assignment), GoodState p doms a → ExtendsAssign f a →
      numCells p - a.length < fuel →
      (backtrack p doms fuel a).1.isSome = true := by
  intro fuel
  induction fuel with
  | zero =>
    intro a _ _ hfuel
    omega
  | succ fuel ih =>
    intro a hg hext hfuel
    by_cases hfull : a.length = numCells p
    · have heq : backtrack p doms (fuel + 1) a = (some a, a) := by
        simp only [backtrack]
        rw [if_pos hfull]
      rw [heq]
      rfl
    · have hlt : a.length < numCells p := by
        have hkl : (keysOf a).length = a.length := List.length_map _ _
        have hle := (List.Nodup.subperm hg.1 fun c hc => hg.2.1 c hc).length_le
        have hnc : numCells p = (gridCells p).length := rfl
        omega
      obtain ⟨var, hsv⟩ := @select_var_isSome p doms a hlt
      obtain ⟨hvg, hvnot⟩ := select_var_spec hsv
      have heq : backtrack p doms (fuel + 1) a =
          try_values p (backtrack p doms fuel) var (order_values p doms (doms var)) a := by
        simp only [backtrack]
        rw [if_neg hfull, hsv]
      rw [heq]
      have hf3 : f var < 3 := hvalid.1 var hvg
      have hfd : f var ∈ doms var := by
        rw [hdoms var hvg]
        simp
        omega
      -- the tentative value is consistent: count argument plus grid bounds
      have hsubl : var :: keysOf a ⊆ gridCells p := by
        intro c hc
        rcases List.mem_cons.mp hc with h | h
        · exact h ▸ hvg
        · exact hg.2.1 c h
      have hnd2 : (var :: keysOf a).Nodup := List.nodup_cons.mpr ⟨hvnot, hg.1⟩
      have hcle : List.countP (fun c => f c == f var) (var :: keysOf a) ≤
          List.countP (fun c => f c == f var) (gridCells p) :=
        (List.Nodup.subperm hnd2 hsubl).countP_le _
      have hcons2 : List.countP (fun c => f c == f var) (var :: keysOf a) =
          countValue a (f var) + 1 := by
        rw [List.countP_cons]
        rw [countValue_eq_countP_keys hext]
        simp
      have hsup := hvalid.2 (f var) hf3
      have hcount : countValue a (f var) < p.tile_counts.getD (f var) 0 := by
        omega
      have hb := mem_gridCells.mp hvg
      have hcons : is_consistent p a var (f var) = true := by
        rw [is_consistent_iff]
        exact ⟨hcount, row_origin_lt hb.1, col_origin_lt hb.2⟩
      apply try_values_complete (backtrack_restore fuel) _ a hvnot
      refine ⟨f var, mem_order_values.mpr hfd, hcons, ?_⟩
      apply ih
      · exact GoodState.insert hg hvg hvnot hfd hcons
      · intro kv hkv
        rcases List.mem_append.mp hkv with h | h
        · exact hext kv h
        · rw [List.mem_singleton.mp h]
      · rw [List.length_append]
        simp only [List.length_cons, List.length_nil]
        omega

/-- A successful lookup returns a stored pair. -/
theorem lookupCell_mem {A : Assignment} {c : Cell} {v : Nat}
    (h : lookupCell A c = some v) : (c, v) ∈ A := by
  unfold lookupCell at h
  cases hf : A.find? (fun kv => kv.1 == c) with
  | none => rw [hf] at h; cases h
  | some kv =>
    rw [hf] at h
    obtain ⟨k1, k2⟩ := kv
    have hv : k2 = v := by injection h
    have hkc : k1 = c := by
      have h2 := List.find?_some hf
      simpa using h2
    have hmem := List.mem_of_find?_eq_some hf
    rw [hkc, hv] at hmem
    exact hmem

/-- Every assigned key has a stored value. -/
theorem lookupCell_isSome {A : Assignment} {c : Cell} (h : c ∈ keysOf A) :
    ∃ v, lookupCell A c = some v := by
  unfold keysOf at h
  obtain ⟨kv, hkv, hk⟩ := List.mem_map.mp h
  have hsome : (A.find? fun x => x.1 == c).isSome = true :=
    List.find?_isSome.mpr ⟨kv, hkv, by simp [hk]⟩
  unfold lookupCell
  cases hf : A.find? (fun x => x.1 == c) with
  | none => rw [hf] at hsome; cases hsome
  | some kv2 => exact ⟨kv2.2, rfl⟩

/-- Counting assigned cells through key lookup agrees with counting stored
values, for an assignment dict without duplicate keys. -/
theorem countP_lookup_eq {A : Assignment} (hnd : (keysOf A).Nodup) (t : Nat) :
    List.countP (fun c => (lookupCell A c).getD 0 == t) (keysOf A) =
      countValue A t := by
  induction A with
  | nil => rfl
  | cons kv rest ih =>
    have hk : keysOf (kv :: rest) = kv.1 :: keysOf rest := rfl
    rw [hk] at hnd ⊢
    obtain ⟨hnin, hnd2⟩ := List.nodup_cons.mp hnd
    rw [List.countP_cons]
    have hhead : lookupCell (kv :: rest) kv.1 = some kv.2 := by
      unfold lookupCell
      rw [List.find?_cons_of_pos _ (by simp)]
    have htail : List.countP (fun c => (lookupCell (kv :: rest) c).getD 0 == t)
        (keysOf rest) =
        List.countP (fun c => (lookupCell rest c).getD 0 == t) (keysOf rest) := by
      apply List.countP_congr
      intro c hc
      have hne : ¬(kv.1 == c) = true := by
        simp only [beq_iff_eq]
        intro he
        exact hnin (he ▸ hc)
      have hlc : lookupCell (kv :: rest) c = lookupCell rest c := by
        unfold lookupCell
        have hfind : List.find? (fun x => x.1 == c) (kv :: rest) =
            List.find? (fun x => x.1 == c) rest :=
          List.find?_cons_of_neg _ hne
        rw [hfind]
      rw [hlc]
    rw [htail, ih hnd2, hhead]
    unfold countValue
    rw [List.countP_cons]
    simp

/-- A complete assignment with distinct grid-cell keys covers the grid. -/
theorem keys_perm_grid {p : TilePlacementProblem} {A : Assignment}
    (hnd : (keysOf A).Nodup) (hsub : ∀ c ∈ keysOf A, c ∈ gridCells p)
    (hlen : A.length = numCells p) : (keysOf A).Perm (gridCells p) := by
  apply (List.Nodup.subperm hnd fun c hc => hsub c hc).perm_of_length_le
  have h1 : (keysOf A).length = A.length := List.length_map _ _
  have h2 : numCells p = (gridCells p).length := rfl
  omega

/-- A landscape with at least one row yields at least one grid row. -/
theorem grid_height_pos {p : TilePlacementProblem} (hh : 1 ≤ p.height) :
    1 ≤ p.grid_height := by
  show 1 ≤ (p.height + 4 - 1) / 4
  rw [Nat.le_div_iff_mul_le (by norm_num)]
  omega

/-- A landscape with at least one column yields at least one grid column. -/
theorem grid_width_pos {p : TilePlacementProblem} (hw : 1 ≤ p.width) :
    1 ≤ p.grid_width := by
  show 1 ≤ (p.width + 4 - 1) / 4
  rw [Nat.le_div_iff_mul_le (by norm_num)]
  omega

/-- Values stored in post-propagation domains are tile type indices. -/
theorem mem_ac3_lt3 {p : TilePlacementProblem} {c : Cell} {v : Nat}
    (h : v ∈ (ac3 p).2 c) : v < 3 := by
  rcases @ac3_full_or_empty p c with he | he <;> rw [he] at h
  · have h3 : v = 0 ∨ v = 1 ∨ v = 2 := by simpa using h
    omega
  · cases h

/-- The empty assignment satisfies the search state invariant. -/
theorem goodState_nil {p : TilePlacementProblem} {doms : Cell → List Nat} :
    GoodState p doms [] :=
  ⟨List.nodup_nil, by simp [keysOf], by simp, fun t => by simp [countValue]⟩

/-- When propagation passes, solve runs the search over its domains. -/
theorem solve_eq_backtrack {p : TilePlacementProblem}
    (h : (ac3 p).1 = true) :
    solve p = (backtrack p (ac3 p).2 (numCells p + 1) []).1 := by
  show (if (ac3 p).1 = true then (backtrack p (ac3 p).2 (numCells p + 1) []).1
    else none) = (backtrack p (ac3 p).2 (numCells p + 1) []).1
  rw [if_pos h]

/-- When propagation fails, solve returns the failure signal. -/
theorem solve_eq_none {p : TilePlacementProblem} (h : (ac3 p).1 = false) :
    solve p = none := by
  show (if (ac3 p).1 = true then (backtrack p (ac3 p).2 (numCells p + 1) []).1
    else none) = none
  rw [h]
  simp

/-- C1: for every well-formed input (rectangular landscape with at least one
row and one column, three supply counts), solve returns a complete assignment
exactly when some total assignment of the grid cells to tile types 0..2
respects every per-type supply limit; otherwise it returns the distinguishable
failure signal none (solve is a total function of the embedding, so it cannot
raise). -/
theorem claim_C1 (p : TilePlacementProblem) (_hrect : p.Rectangular)
    (hh : 1 ≤ p.height) (hw : 1 ≤ p.width) (_h3 : p.tile_counts.length = 3) :
    (solve p).isSome = true ↔ ∃ f : Cell → Nat, ValidTotal p f := by
  constructor
  · intro hs
    cases hsol : solve p with
    | none => rw [hsol] at hs; cases hs
    | some A =>
      by_cases hac : (ac3 p).1 = true
      · have hbt : (backtrack p (ac3 p).2 (numCells p + 1) []).1 = some A := by
          rw [← solve_eq_backtrack hac]
          exact hsol
        obtain ⟨hg, hlen⟩ := backtrack_sound _ _ goodState_nil A hbt
        have hperm := keys_perm_grid hg.1 hg.2.1 hlen
        refine ⟨fun c => (lookupCell A c).getD 0, ?_, ?_⟩
        · intro c hc
          obtain ⟨v, hv⟩ := lookupCell_isSome (hperm.mem_iff.mpr hc)
          show (lookupCell A c).getD 0 < 3
          rw [hv]
          exact mem_ac3_lt3 (hg.2.2.1 _ (lookupCell_mem hv))
        · intro t ht
          show List.countP (fun c => (lookupCell A c).getD 0 == t)
            (gridCells p) ≤ p.tile_counts.getD t 0
          rw [← hperm.countP_eq, countP_lookup_eq hg.1]
          exact hg.2.2.2 t
      · have hnone : solve p = none := solve_eq_none (by simpa using hac)
        rw [hnone] at hsol
        cases hsol
  · rintro ⟨f, hvalid⟩
    have hc0 : ((0, 0) : Cell) ∈ gridCells p :=
      mem_gridCells.mpr ⟨grid_height_pos hh, grid_width_pos hw⟩
    have hf0 : f (0, 0) < 3 := hvalid.1 _ hc0
    have hpos : 0 < p.tile_counts.getD (f (0, 0)) 0 := by
      have hcnt := hvalid.2 (f (0, 0)) hf0
      have h1le : 0 < List.countP (fun c => f c == f (0, 0)) (gridCells p) :=
        List.countP_pos_iff.mpr ⟨(0, 0), hc0, by simp⟩
      omega
    have hac : (ac3 p).1 = true := by
      rw [ac3_fst_iff]
      intro c hc
      exact (keepable_iff_supply hc).mpr ⟨f (0, 0), hf0, hpos⟩
    have hdoms : ∀ c ∈ gridCells p, (ac3 p).2 c = [0, 1, 2] :=
      fun c hc => ac3_pass_full hac hc
    have hsucc := backtrack_complete hdoms hvalid (numCells p + 1) []
      goodState_nil (by intro kv hkv; cases hkv) (by simp)
    rw [solve_eq_backtrack hac]
    exact hsucc

/-- C1 witness: the one-cell landscape with one FULL_BLOCK instantiates the
well-formedness preconditions and the equivalence. -/
theorem claim_C1_witness :
    (pOne.Rectangular ∧ 1 ≤ pOne.height ∧ 1 ≤ pOne.width ∧
      pOne.tile_counts.length = 3) ∧
    ((solve pOne).isSome = true ↔ ∃ f : Cell → Nat, ValidTotal pOne f) :=
  ⟨⟨by unfold TilePlacementProblem.Rectangular; decide, by decide, by decide,
      by decide⟩,
    claim_C1 pOne (by unfold TilePlacementProblem.Rectangular; decide)
      (by decide) (by decide) (by decide)⟩

/-- C2: a successful solve returns an assignment that maps every placement
cell of the ceil(H/4) x ceil(W/4) grid to exactly one tile type in 0..2
(distinct keys covering the grid, totality count grid_height * grid_width),
using each tile type at most its supply entry many times. -/
theorem claim_C2 (p : TilePlacementProblem) (A : Assignment)
    (h : solve p = some A) :
    (keysOf A).Nodup ∧ (∀ c, c ∈ keysOf A ↔ c ∈ gridCells p) ∧
    A.length = p.grid_height * p.grid_width ∧
    (∀ kv ∈ A, kv.2 < 3) ∧
    (∀ t, countValue A t ≤ p.tile_counts.getD t 0) := by
  by_cases hac : (ac3 p).1 = true
  · have hbt : (backtrack p (ac3 p).2 (numCells p + 1) []).1 = some A := by
      rw [← solve_eq_backtrack hac]
      exact h
    obtain ⟨hg, hlen⟩ := backtrack_sound _ _ goodState_nil A hbt
    have hperm := keys_perm_grid hg.1 hg.2.1 hlen
    refine ⟨hg.1, fun c => hperm.mem_iff, ?_, ?_, hg.2.2.2⟩
    · rw [hlen, numCells_eq]
    · intro kv hkv
      exact mem_ac3_lt3 (hg.2.2.1 kv hkv)
  · have hnone : solve p = none := solve_eq_none (by simpa using hac)
    rw [hnone] at h
    cases h

/-- C2 witness: the one-cell instance solves to the single-entry assignment,
which satisfies every success postcondition. -/
theorem claim_C2_witness :
    solve pOne = some [((0, 0), 0)] ∧
    ((keysOf [((0, 0), 0)]).Nodup ∧
     (∀ c, c ∈ keysOf [((0, 0), 0)] ↔ c ∈ gridCells pOne) ∧
     ([((0, 0), 0)] : Assignment).length =
       pOne.grid_height * pOne.grid_width ∧
     (∀ kv ∈ ([((0, 0), 0)] : Assignment), kv.2 < 3) ∧
     (∀ t, countValue [((0, 0), 0)] t ≤ pOne.tile_counts.getD t 0)) :=
  ⟨by decide, claim_C2 pOne [((0, 0), 0)] (by decide)⟩

/-- C3 failing-input evaluation: on the one-cell landscape with supplies
[0, 1, 1], tile value 0 has zero supply and is inconsistent for the cell
during propagation, yet the propagation pass removes nothing: the domain
stays [0, 1, 2].  The revision loop ignores the value under consideration and
removes values only when the whole domain has lost all support, so the
specified per-value removal does not happen. -/
theorem claim_C3_eval :
    (ac3 pPartial).2 (0, 0) = [0, 1, 2] ∧
    pPartial.tile_counts.getD 0 0 = 0 ∧
    is_consistent pPartial [] (0, 0) 0 = false :=
  ⟨by decide, by decide, by decide⟩

/-- C4 failing-input evaluation: with the probe domain store, cell (0, 0)
holds domain [0] and cell (0, 1) holds [0, 1]; the aggregate domain size of
value 0 is 3 and that of value 1 is 2, yet the candidate ordering for cell
(0, 1) tries value 1 first: the sort is ascending in the aggregate (most
constraining first), not the prescribed descending least-constraining-first
order. -/
theorem claim_C4_eval :
    order_values pProbe probeDoms [0, 1] = [1, 0] ∧
    least_constraining_value pProbe probeDoms 1 = 2 ∧
    least_constraining_value pProbe probeDoms 0 = 3 :=
  ⟨by decide, by decide, by decide⟩

/-- C5: with the all-zero supply vector on any non-empty grid, propagation
empties every placement cell domain and solve returns the unsatisfiable
signal none without raising (the embedding is total). -/
theorem claim_C5 (p : TilePlacementProblem) (hh : 1 ≤ p.height)
    (hw : 1 ≤ p.width) (hsup : p.tile_counts = [0, 0, 0]) :
    (∀ c ∈ gridCells p, (ac3 p).2 c = []) ∧ solve p = none := by
  have hkeep : ∀ c ∈ gridCells p, keepable p c = false := by
    intro c hc
    cases hk : keepable p c with
    | false => rfl
    | true =>
      obtain ⟨v, hv3, hpos⟩ := (keepable_iff_supply hc).mp hk
      rw [hsup] at hpos
      have hz : ([0, 0, 0] : List Nat).getD v 0 = 0 := by
        rcases v with _ | _ | _ | v <;> simp [List.getD]
      rw [hz] at hpos
      exact absurd hpos (lt_irrefl 0)
  refine ⟨?_, ?_⟩
  · intro c hc
    rw [ac3_snd_eq, if_pos ⟨hc, hkeep c hc⟩]
  · have hc0 : ((0, 0) : Cell) ∈ gridCells p :=
      mem_gridCells.mpr ⟨grid_height_pos hh, grid_width_pos hw⟩
    have hac : (ac3 p).1 = false := by
      cases hf : (ac3 p).1 with
      | false => rfl
      | true =>
        have hkc := ac3_fst_iff.mp hf (0, 0) hc0
        rw [hkeep _ hc0] at hkc
        cases hkc
    exact solve_eq_none hac

/-- C5 witness: the one-cell landscape with no tiles at all. -/
theorem claim_C5_witness :
    (1 ≤ pZero.height ∧ 1 ≤ pZero.width ∧ pZero.tile_counts = [0, 0, 0]) ∧
    ((∀ c ∈ gridCells pZero, (ac3 pZero).2 c = []) ∧ solve pZero = none) :=
  ⟨⟨by decide, by decide, by decide⟩,
    claim_C5 pZero (by decide) (by decide) (by decide)⟩

/-- C6: the Consistency Oracle accepts a candidate (cell, value) against the
current assignment exactly when the count of cells already assigned that
value is strictly below its supply entry and the top-left landscape
coordinate (row * TILE_SIZE, col * TILE_SIZE) of the cell lies inside the
landscape; as a pure function of the embedding it reads the assignment and
domains and mutates nothing. -/
theorem claim_C6 (p : TilePlacementProblem) (a : Assignment) (var : Cell)
    (value : Nat) :
    is_consistent p a var value = true ↔
      countValue a value < p.tile_counts.getD value 0 ∧
      var.1 * TILE_SIZE < p.height ∧ var.2 * TILE_SIZE < p.width :=
  is_consistent_iff

/-- C7: whenever a recursive _backtrack call reports failure, the assignment
dict is exactly as it was on entry to that call, every tentative assignment
having been undone; in particular a failing solve leaves no partial
assignment behind. -/
theorem claim_C7 (p : TilePlacementProblem) (doms : Cell → List Nat)
    (fuel : Nat) (a : Assignment)
    (h : (backtrack p doms fuel a).1 = none) :
    (backtrack p doms fuel a).2 = a :=
  backtrack_restore fuel a h

/-- C7 witness: the unsatisfiable one-cell instance fails and leaves the
assignment empty. -/
theorem claim_C7_witness :
    (backtrack pZero initDomains 2 []).1 = none ∧
    (backtrack pZero initDomains 2 []).2 = [] :=
  ⟨by decide, claim_C7 pZero initDomains 2 [] (by decide)⟩

/-- C8: every cell produced by the grid partitioner has its top-left
landscape coordinate strictly inside the landscape, so for such cells the
out-of-bounds rejection branch of the Consistency Oracle is unreachable and
the oracle reduces to the supply check. -/
theorem claim_C8 (p : TilePlacementProblem) (c : Cell)
    (hc : c ∈ gridCells p) :
    (c.1 * TILE_SIZE < p.height ∧ c.2 * TILE_SIZE < p.width) ∧
    ∀ (a : Assignment) (v : Nat),
      is_consistent p a c v = true ↔
        countValue a v < p.tile_counts.getD v 0 := by
  have hb := mem_gridCells.mp hc
  have h1 := row_origin_lt hb.1
  have h2 := col_origin_lt hb.2
  refine ⟨⟨h1, h2⟩, fun a v => ?_⟩
  rw [is_consistent_iff]
  exact ⟨fun h => h.1, fun h => ⟨h, h1, h2⟩⟩

/-- C8 witness: the single partitioner cell of the one-cell instance. -/
theorem claim_C8_witness :
    ((0, 0) : Cell) ∈ gridCells pOne ∧
    ((((0, 0) : Cell).1 * TILE_SIZE < pOne.height ∧
      ((0, 0) : Cell).2 * TILE_SIZE < pOne.width) ∧
     ∀ (a : Assignment) (v : Nat),
       is_consistent pOne a (0, 0) v = true ↔
         countValue a v < pOne.tile_counts.getD v 0) :=
  ⟨by decide, claim_C8 pOne (0, 0) (by decide)⟩

/-- C9: the propagation queue loop reaches its fixed point within the
explicit fuel bound ac3_fuel: any fuel at or above the bound produces the
same final domain store, so the loop terminates on every input after
finitely many dequeues. -/
theorem claim_C9 (p : TilePlacementProblem) (fuel : Nat)
    (h : ac3_fuel p ≤ fuel) (c : Cell) :
    ac3_loop p fuel initDomains (gridCells p) c =
      ac3_loop p (ac3_fuel p) initDomains (gridCells p) c := by
  rw [ac3_loop_eq fuel initDomains (gridCells p) (fun x => Or.inl rfl)
      (fun x hx => hx) (fun x hx _ _ => hx)
      (le_trans ac3Measure_le_fuel h) c,
    ac3_loop_eq (ac3_fuel p) initDomains (gridCells p) (fun x => Or.inl rfl)
      (fun x hx => hx) (fun x hx _ _ => hx) ac3Measure_le_fuel c]

/-- C9 witness: extra fuel beyond the bound changes nothing on the one-cell
instance. -/
theorem claim_C9_witness :
    ac3_fuel pOne ≤ ac3_fuel pOne + 7 ∧
    ac3_loop pOne (ac3_fuel pOne + 7) initDomains (gridCells pOne) (0, 0) =
      ac3_loop pOne (ac3_fuel pOne) initDomains (gridCells pOne) (0, 0) :=
  ⟨by decide, claim_C9 pOne (ac3_fuel pOne + 7) (by decide) (0, 0)⟩

/-- C10: after propagation every domain is either still the full initial
list [0, 1, 2] or completely empty; the propagator never removes a proper
non-empty subset, because its removal test does not depend on the value
under consideration. -/
theorem claim_C10 (p : TilePlacementProblem) (c : Cell) :
    (ac3 p).2 c = [0, 1, 2] ∨ (ac3 p).2 c = [] :=
  ac3_full_or_empty c

end TilePlacement
